import Mathlib

/-!
Verification of the `AdvancedNLPProcessor` extraction engine
(`src/nlp_processor.py`) of the yt-hoover repository.

The Python code is shallowly embedded: text is a `List Char`, Python
`re` patterns are transcribed as deterministic scanners that reproduce
the semantics of `re.findall` for these concrete patterns (leftmost
scan, greedy repetition; the single pattern needing backtracking, the
bare-domain URL pattern, gets an explicit backtracking loop), Python
floats carrying the fixed confidence weights are modelled as `Rat`,
and Python's Unicode-aware character classes are modelled at their
ASCII core (all inputs exercised here are ASCII).
-/

set_option allowUnsafeReducibility true
attribute [local semireducible] Rat.add Rat.mul Rat.sub Rat.inv

namespace YtHoover

/-- The characters of a string literal, the text representation used
throughout this development. -/
def str (s : String) : List Char := s.data

/-- ASCII lower-casing of one character, modelling `str.lower` on the
ASCII range. -/
def asciiLower (c : Char) : Char :=
  if 'A' ≤ c ∧ c ≤ 'Z' then Char.ofNat (c.toNat + 32) else c

/-- `str.lower` on a whole text. -/
def lowerL (t : List Char) : List Char := t.map asciiLower

/-- Python `\s` (ASCII core): the whitespace characters. -/
def isSpacePy (c : Char) : Bool :=
  c = ' ' ∨ c = '\t' ∨ c = '\n' ∨ c = '\r' ∨ c = '\x0b' ∨ c = '\x0c'

/-- Python `\w` (ASCII core): letters, digits and underscore. -/
def isWordPy (c : Char) : Bool :=
  ('a' ≤ c ∧ c ≤ 'z') ∨ ('A' ≤ c ∧ c ≤ 'Z') ∨ ('0' ≤ c ∧ c ≤ '9') ∨ c = '_'

example : lowerL (str "PyThon C++") = str "python c++" := by decide

/-- Length of the longest run of characters satisfying `f` at the front
of a text (the greedy consumption of a regex character class). -/
def leadCount (f : Char → Bool) : List Char → Nat
  | [] => 0
  | c :: t => if f c then leadCount f t + 1 else 0

/-- Case-insensitive literal matcher: consumes `l` (given lower-cased)
from the front of `s`, as a literal under `re.IGNORECASE`. -/
def litCI (l : List Char) (s : List Char) : Option Nat :=
  if lowerL (s.take l.length) = l then some l.length else none

/-- Case-sensitive literal matcher. -/
def lit (l : List Char) (s : List Char) : Option Nat :=
  if s.take l.length = l then some l.length else none

/-- Sequencing of two consumers (regex juxtaposition). -/
def mseq (a b : List Char → Option Nat) (s : List Char) : Option Nat :=
  match a s with
  | none => none
  | some n =>
    match b (s.drop n) with
    | none => none
    | some m => some (n + m)

/-- Greedy option (regex `(?:...)?` where the tail never backtracks). -/
def mopt (a : List Char → Option Nat) (s : List Char) : Option Nat :=
  match a s with
  | some n => some n
  | none => some 0

/-- Regex `X+` for a character class `X`. -/
def munch1 (f : Char → Bool) (s : List Char) : Option Nat :=
  let n := leadCount f s
  if n = 0 then none else some n

/-- Regex `X*` for a character class `X`. -/
def munch0 (f : Char → Bool) (s : List Char) : Option Nat :=
  some (leadCount f s)

/-- Ordered alternation of consumers (regex `a|b|...`). -/
def mfirst : List (List Char → Option Nat) → List Char → Option Nat
  | [], _ => none
  | a :: rest, s =>
    match a s with
    | some n => some n
    | none => mfirst rest s

/-- The scanning loop of `re.findall`: try a match at each position,
left to right; on success record the extracted value and resume after
the match, otherwise advance one character.  `prev` carries the
preceding character (needed by `^` under `re.MULTILINE` and by `\s`
context); all matchers here consume at least one character. -/
def scanAF {α : Type} (step : Option Char → List Char → Option (α × Nat)) :
    Nat → Option Char → List Char → List α
  | 0, _, _ => []
  | _ + 1, _, [] => []
  | fuel + 1, prev, c :: rest =>
    match step prev (c :: rest) with
    | some (v, k) =>
      v :: scanAF step fuel ((c :: rest).take (max k 1)).getLast? ((c :: rest).drop (max k 1))
    | none => scanAF step fuel (some c) rest

/-- The scan entry point; a fuel of the text length always suffices
because every match consumes at least one character. -/
def scanA {α : Type} (step : Option Char → List Char → Option (α × Nat))
    (prev : Option Char) (s : List Char) : List α :=
  scanAF step s.length prev s

/-- Regex class `[-\w.]` (URL host part). -/
def hostChar (c : Char) : Bool := c = '-' ∨ isWordPy c ∨ c = '.'

/-- Regex class `[:\d]` (URL port part). -/
def portChar (c : Char) : Bool := c = ':' ∨ ('0' ≤ c ∧ c ≤ '9')

/-- Regex class `[\w/_.]` (URL path part). -/
def pathChar (c : Char) : Bool := isWordPy c ∨ c = '/' ∨ c = '.'

/-- Regex class `[\w&=%.]` (URL query part). -/
def queryChar (c : Char) : Bool := isWordPy c ∨ c = '&' ∨ c = '=' ∨ c = '%' ∨ c = '.'

/-- Regex class `[\w.]` (URL fragment part). -/
def fragChar (c : Char) : Bool := isWordPy c ∨ c = '.'

/-- The common tail of the first two URL patterns:
`(?:[-\w.])+(?:[:\d]+)?(?:/(?:[\w/_.])*(?:\?(?:[\w&=%.])*)?(?:#(?:[\w.])*)?)?`. -/
def urlTail : List Char → Option Nat :=
  mseq (munch1 hostChar)
    (mseq (munch0 portChar)
      (mopt (mseq (lit (str "/"))
        (mseq (munch0 pathChar)
          (mseq (mopt (mseq (lit (str "?")) (munch0 queryChar)))
            (mopt (mseq (lit (str "#")) (munch0 fragChar))))))))

/-- First URL pattern: `https?://` followed by host/port/path/query/fragment. -/
def urlPat1 : List Char → Option Nat :=
  mseq (mfirst [litCI (str "https://"), litCI (str "http://")]) urlTail

/-- Second URL pattern: `www\.` followed by the same tail. -/
def urlPat2 : List Char → Option Nat :=
  mseq (litCI (str "www.")) urlTail

/-- The top-level-domain alternation of the third URL pattern, in the
source's order. -/
def tldList : List (List Char) :=
  [str "com", str "org", str "net", str "edu", str "gov", str "io",
   str "co", str "ai", str "dev", str "app", str "tech", str "cloud"]

/-- Matches one alternative of `(?:com|org|...|cloud)` case-insensitively. -/
def tldAt : List Char → Option Nat := mfirst (tldList.map litCI)

/-- The optional path of the third URL pattern: `(?:/(?:[\w/_.])*)?`. -/
def p3path : List Char → Option Nat := mopt (mseq (lit (str "/")) (munch0 pathChar))

/-- Backtracking loop of the third URL pattern: the group `(?:[-\w.])+`
tries the longest possible prefix first and gives characters back one
at a time until the literal dot and a top-level domain can match. -/
def p3go (s : List Char) : Nat → Option Nat
  | 0 => none
  | j + 1 =>
    match s.drop (j + 1) with
    | '.' :: rest2 =>
      match tldAt rest2 with
      | some t =>
        match p3path (rest2.drop t) with
        | some p => some (j + 1 + 1 + t + p)
        | none => none
      | none => p3go s j
    | _ => p3go s j

/-- Third URL pattern:
`(?:[-\w.])+\.(?:com|org|net|edu|gov|io|co|ai|dev|app|tech|cloud)(?:/(?:[\w/_.])*)?`. -/
def urlPat3 (s : List Char) : Option Nat :=
  let n := leadCount hostChar s
  if n = 0 then none else p3go s n

/-- Wraps a position-independent consumer as a findall step returning
the matched slice. -/
def urlStep (m : List Char → Option Nat) (_ : Option Char) (s : List Char) :
    Option (List Char × Nat) :=
  match m s with
  | some n => some (s.take n, n)
  | none => none

/-- All matches of one URL pattern over the text (`re.findall` with
`re.IGNORECASE`). -/
def findallM (m : List Char → Option Nat) (t : List Char) : List (List Char) :=
  scanA (urlStep m) none t

/-- The punctuation set of `match.strip('.,;:!?')`. -/
def punctSet (c : Char) : Bool :=
  c = '.' ∨ c = ',' ∨ c = ';' ∨ c = ':' ∨ c = '!' ∨ c = '?'

/-- Python `str.strip` with an explicit character set: remove the
characters from both ends. -/
def stripEnds (f : Char → Bool) (l : List Char) : List Char :=
  ((l.dropWhile f).reverse.dropWhile f).reverse

/-- The three URL recognizers, in the source's order. -/
def urlPatterns : List (List Char → Option Nat) := [urlPat1, urlPat2, urlPat3]

/-- Adds a string to the accumulator unless already present, modelling
membership in the Python `set` (with a fixed first-insertion order for
the final `list(set)` materialization). -/
def insertNew (acc : List (List Char)) (x : List Char) : List (List Char) :=
  if acc.contains x then acc else acc ++ [x]

/-- `AdvancedNLPProcessor.extract_urls`: find all matches of the three
URL patterns, strip surrounding punctuation, keep candidates longer
than 5 characters, and collect them without duplicates. -/
def extract_urls (text : List Char) : List (List Char) :=
  let cands := urlPatterns.foldl (fun acc m =>
    acc ++ (findallM m text).filterMap (fun mt =>
      if stripEnds punctSet mt ≠ [] ∧ (stripEnds punctSet mt).length > 5
      then some (stripEnds punctSet mt) else none)) []
  cands.foldl insertNew []

example : extract_urls (str "Check out https://github.com/example/repo and www.example.com") =
    [str "https://github.com/example/repo", str "www.example.com",
     str "github.com/example/repo"] := by decide

/-- A `commands` entry: Python dict `{'command', 'type', 'confidence'}`. -/
structure Command where
  command : List Char
  ctype : List Char
  confidence : Rat
deriving DecidableEq, Repr

/-- A `code_snippets` entry: Python dict
`{'type', 'language', 'code', 'confidence'}`. -/
structure Snippet where
  stype : List Char
  language : List Char
  code : List Char
  confidence : Rat
deriving DecidableEq, Repr

/-- `^` under `re.MULTILINE`: start of text or right after a newline. -/
def lineStart (prev : Option Char) : Bool := prev = none ∨ prev = some '\n'

/-- Tries the capturing alternation `(tool1|tool2|...)`, each followed
by `\s+\w+`; `off` is the width of the already-consumed `(?:^|\s)`
part.  Returns the captured group (the tool name, which is what
`re.findall` yields for a pattern with one group) and the full match
width. -/
def grpTry (alts : List (List Char)) (off : Nat) (s : List Char) :
    Option (List Char × Nat) :=
  match alts with
  | [] => none
  | a :: rest =>
    if a.isPrefixOf s then
      let r := s.drop a.length
      let nsp := leadCount isSpacePy r
      let nw := leadCount isWordPy (r.drop nsp)
      if nsp ≠ 0 ∧ nw ≠ 0 then some (a, off + a.length + nsp + nw)
      else grpTry rest off s
    else grpTry rest off s

/-- One CLI pattern `(?:^|\s)(alt1|alt2|...)\s+\w+` at the current
position: first the zero-width `^` branch, then the `\s` branch. -/
def cliStep (alts : List (List Char)) (prev : Option Char) (s : List Char) :
    Option (List Char × Nat) :=
  match (if lineStart prev then grpTry alts 0 s else none) with
  | some r => some r
  | none =>
    match s with
    | c :: s2 => if isSpacePy c then grpTry alts 1 s2 else none
    | [] => none

/-- The four `cli_patterns` alternations, in the source's order. -/
def cliPatterns : List (List (List Char)) :=
  [[str "docker", str "kubectl", str "helm", str "terraform", str "ansible",
    str "vagrant", str "chef", str "puppet"],
   [str "aws", str "gcloud", str "az"],
   [str "git", str "svn", str "hg"],
   [str "npm", str "yarn", str "pip", str "composer", str "gem", str "cargo",
    str "go"]]

/-- `AdvancedNLPProcessor.extract_commands`: run each CLI pattern's
findall over the text and record each captured tool name (stripped)
with type `cli_command` and confidence `0.8`. -/
def extract_commands (text : List Char) : List Command :=
  cliPatterns.foldl (fun acc alts =>
    acc ++ (scanA (cliStep alts) none text).map (fun g =>
      ⟨stripEnds isSpacePy g, str "cli_command", mkRat 4 5⟩)) []

example : extract_commands (str "npm install express mongoose") =
    [⟨str "npm", str "cli_command", mkRat 4 5⟩] := by decide

example : extract_commands (str "go npm install express mongoose") =
    [⟨str "go", str "cli_command", mkRat 4 5⟩] := by decide

/-- First index at which `pat` occurs in the text, if any (the target
of the lazy `(.*?)` in the fenced-block pattern). -/
def findSub (pat : List Char) : List Char → Option Nat
  | [] => if pat = [] then some 0 else none
  | c :: t =>
    if pat.isPrefixOf (c :: t) then some 0
    else (findSub pat t).map (· + 1)

/-- The fenced-block pattern ```` ```(\w+)?\n(.*?)\n``` ```` under
`re.DOTALL`: an optional greedy language word after the opening fence,
a newline, then the shortest body closed by a newline and a fence.
Returns the two captured groups (language, body). -/
def blockStep (_ : Option Char) (s : List Char) :
    Option ((List Char × List Char) × Nat) :=
  if (str "```").isPrefixOf s then
    let r := s.drop 3
    let w := leadCount isWordPy r
    match r.drop w with
    | '\n' :: body =>
      match findSub (str "\n```") body with
      | some m => some ((r.take w, body.take m), 3 + w + 1 + m + 4)
      | none => none
    | _ => none
  else none

/-- The backtick character, kept out of character-literal position. -/
def tick : Char := '\x60'

/-- The inline-code pattern `` `([^`]+)` ``: a backtick, one or more
non-backtick characters (captured), and a closing backtick. -/
def inlineStep (_ : Option Char) (s : List Char) : Option (List Char × Nat) :=
  match s with
  | c :: t =>
    if c = tick then
      let n := leadCount (fun d => ¬ d = tick) t
      match t.drop n with
      | d :: _ => if n ≠ 0 ∧ d = tick then some (t.take n, n + 2) else none
      | [] => none
    else none
  | [] => none

/-- `AdvancedNLPProcessor.extract_code_snippets`: fenced blocks (with
`language or 'unknown'`, stripped body, confidence `0.9`) followed by
inline spans whose stripped text is longer than 2 (confidence `0.6`). -/
def extract_code_snippets (text : List Char) : List Snippet :=
  (scanA blockStep none text).map (fun lc =>
    ⟨str "code_block", if lc.1 = [] then str "unknown" else lc.1,
     stripEnds isSpacePy lc.2, mkRat 9 10⟩)
  ++ (scanA inlineStep none text).filterMap (fun c =>
    let cs := stripEnds isSpacePy c
    if cs.length > 2 then some ⟨str "inline_code", str "unknown", cs, mkRat 3 5⟩
    else none)

example : extract_code_snippets (str "```javascript\nconst x = 1;\n```") =
    [⟨str "code_block", str "javascript", str "const x = 1;", mkRat 9 10⟩,
     ⟨str "inline_code", str "unknown", str "javascript\nconst x = 1;", mkRat 3 5⟩] := by
  decide

/-- Python `needle in hay` for strings: substring containment. -/
def containsSub (n : List Char) : List Char → Bool
  | [] => n = []
  | c :: t => if n.isPrefixOf (c :: t) then true else containsSub n t

/-- Fueled helper for `pyCount` (the needle is nonempty here, so every
step consumes at least one character). -/
def pyCountAux (n : List Char) : Nat → List Char → Nat
  | 0, _ => 0
  | _ + 1, [] => 0
  | f + 1, c :: t =>
    if n.isPrefixOf (c :: t) then 1 + pyCountAux n f ((c :: t).drop n.length)
    else pyCountAux n f t

/-- Python `hay.count(n)`: non-overlapping occurrences scanned from the
left; Python returns `len(hay) + 1` for the empty needle. -/
def pyCount (hay n : List Char) : Nat :=
  if n = [] then hay.length + 1 else pyCountAux n hay.length hay

example : pyCount (str "aaaa") (str "aa") = 2 := by decide

/-- Whether the character at index `i` is a word character (`false`
beyond the ends, as for Python's `\b`). -/
def wordAt (t : List Char) (i : Nat) : Bool :=
  match t.get? i with
  | some c => isWordPy c
  | none => false

/-- Python `\b` at position `i` of `t`: word-ness changes between the
previous and the current position. -/
def bAt (t : List Char) (i : Nat) : Bool :=
  ¬ ((if i = 0 then false else wordAt t (i - 1)) = wordAt t i)

/-- A match of `re.search(r'\b' + re.escape(pat) + r'\b', t)` at
position `i`: the literal occurs there with a `\b` on each side. -/
def matchBAt (t pat : List Char) (i : Nat) : Bool :=
  ((t.drop i).take pat.length = pat) ∧ bAt t i ∧ bAt t (i + pat.length)

/-- Whether the word-boundary search of `calculate_confidence` finds a
match anywhere in the text. -/
def hasBMatch (t pat : List Char) : Bool :=
  (List.range (t.length + 1)).any (fun i => matchBAt t pat i)

example : hasBMatch (str "use python now") (str "python") = true := by decide
example : hasBMatch (str "pythonic") (str "python") = false := by decide
example : hasBMatch (str "use c++ now") (str "c++") = false := by decide

/-- Helper for `pySplit`: accumulates the current (reversed) word. -/
def pySplitAux : List Char → List Char → List (List Char)
  | [], cur => if cur = [] then [] else [cur.reverse]
  | c :: t, cur =>
    if isSpacePy c then
      (if cur = [] then pySplitAux t [] else cur.reverse :: pySplitAux t [])
    else pySplitAux t (c :: cur)

/-- Python `text.split()` (no separator): split on whitespace runs,
dropping empty pieces. -/
def pySplit (t : List Char) : List (List Char) := pySplitAux t []

example : pySplit (str "  a b  cd ") = [str "a", str "b", str "cd"] := by decide

/-- The `technical_keywords` of `calculate_confidence`. -/
def technicalKeywords : List (List Char) :=
  [str "using", str "with", str "framework", str "library", str "tool",
   str "platform", str "service"]

/-- One iteration's test of the context loop: the Python slice
`words[max(0, pos - 5) : min(len(words), pos + 5)]` contains one of the
fixed keywords (list membership, i.e. exact token equality). -/
def ctxHit (words : List (List Char)) (pos : Nat) : Bool :=
  let s := pos - 5
  let e := min words.length (pos + 5)
  let context := (words.drop s).take (e - s)
  technicalKeywords.any (fun k => context.contains k)

/-- The token positions whose word contains the entity
(`[i for i, word in enumerate(words) if entity in word]`). -/
def entityPositions (entity : List Char) (words : List (List Char)) : List Nat :=
  (List.range words.length).filter (fun i => containsSub entity (words.getD i []))

/-- The context-bonus loop of `calculate_confidence`: add `0.1` at the
first position whose window holds a keyword, then break. -/
def ctxLoop (words : List (List Char)) (b : Rat) : List Nat → Rat
  | [] => b
  | p :: rest => if ctxHit words p then b + mkRat 1 10 else ctxLoop words b rest

/-- `AdvancedNLPProcessor.calculate_confidence`: base `0.5`, plus `0.3`
on a word-boundary match, plus `min(0.2, occurrences * 0.05)` when the
non-overlapping occurrence count exceeds 1, plus `0.1` from the context
loop, the total clamped to `1.0`. -/
def calculate_confidence (text entity : List Char) (words : List (List Char)) : Rat :=
  let b1 : Rat := mkRat 1 2
  let b2 := if hasBMatch text entity then b1 + mkRat 3 10 else b1
  let occ := pyCount text entity
  let b3 := if occ > 1 then b2 + min (mkRat 1 5) (mkRat occ 20) else b2
  let b4 := ctxLoop words b3 (entityPositions entity words)
  min 1 b4

/-- The `programming_languages` lexicon of `setup_knowledge_bases` (source order,
exact duplicates dropped). -/
def programmingLanguages : List (List Char) :=
  [str "python", str "javascript", str "java", str "c++", str "c#", str "c",
   str "go", str "rust", str "swift", str "kotlin", str "typescript",
   str "php", str "ruby", str "scala", str "r", str "matlab", str "perl",
   str "lua", str "dart", str "julia", str "haskell", str "erlang",
   str "elixir", str "clojure", str "f#", str "ocaml", str "scheme",
   str "lisp", str "prolog", str "fortran", str "cobol", str "pascal",
   str "delphi", str "visual basic", str "vb.net", str "assembly",
   str "bash", str "powershell", str "sql", str "plsql", str "tsql",
   str "nosql", str "graphql", str "html", str "css", str "sass",
   str "less", str "stylus", str "xml", str "json", str "yaml", str "toml",
   str "ini", str "csv", str "markdown", str "latex"]

/-- The `frameworks_libraries` lexicon of `setup_knowledge_bases` (source order,
exact duplicates dropped). -/
def frameworksLibraries : List (List Char) :=
  [str "django", str "flask", str "fastapi", str "tornado", str "pyramid",
   str "bottle", str "cherrypy", str "numpy", str "pandas",
   str "matplotlib", str "seaborn", str "plotly", str "bokeh", str "scipy",
   str "scikit-learn", str "tensorflow", str "pytorch", str "keras",
   str "theano", str "caffe", str "opencv", str "pillow", str "requests",
   str "beautifulsoup", str "scrapy", str "selenium", str "pytest",
   str "unittest", str "nose", str "tox", str "black", str "flake8",
   str "mypy", str "react", str "vue", str "angular", str "svelte",
   str "ember", str "backbone", str "jquery", str "express", str "koa",
   str "hapi", str "fastify", str "nest", str "next.js", str "nuxt",
   str "gatsby", str "webpack", str "parcel", str "rollup", str "vite",
   str "babel", str "eslint", str "jest", str "mocha", str "chai",
   str "cypress", str "playwright", str "puppeteer", str "lodash",
   str "moment", str "axios", str "fetch", str "socket.io", str "three.js",
   str "d3", str "spring", str "spring boot", str "hibernate", str "struts",
   str "jsf", str "wicket", str "junit", str "testng", str "mockito",
   str "maven", str "gradle", str "ant", str "asp.net", str ".net core",
   str "entity framework", str "xamarin", str "blazor", str "nunit",
   str "xunit", str "moq", str "autofac", str "ninject", str "react native",
   str "flutter", str "ionic", str "cordova", str "phonegap", str "unity",
   str "unreal engine", str "bootstrap", str "tailwind", str "bulma",
   str "foundation", str "semantic ui", str "material ui", str "ant design",
   str "chakra ui", str "styled-components", str "mongoose",
   str "sequelize", str "typeorm", str "prisma", str "knex",
   str "bookshelf"]

/-- The `platforms_services` lexicon of `setup_knowledge_bases` (source order,
exact duplicates dropped). -/
def platformsServices : List (List Char) :=
  [str "aws", str "amazon web services", str "azure", str "google cloud",
   str "gcp", str "digitalocean", str "linode", str "vultr", str "heroku",
   str "netlify", str "vercel", str "cloudflare", str "fastly",
   str "akamai", str "github", str "gitlab", str "bitbucket",
   str "sourceforge", str "codeberg", str "docker", str "kubernetes",
   str "openshift", str "rancher", str "nomad", str "jenkins",
   str "travis ci", str "circle ci", str "github actions", str "gitlab ci",
   str "mysql", str "postgresql", str "mongodb", str "redis",
   str "elasticsearch", str "cassandra", str "dynamodb", str "firestore",
   str "supabase", str "planetscale", str "sqlite", str "oracle",
   str "sql server", str "mariadb", str "couchdb", str "rabbitmq",
   str "apache kafka", str "redis pub/sub", str "amazon sqs",
   str "google pub/sub", str "apache pulsar", str "nats", str "zeromq",
   str "datadog", str "new relic", str "splunk", str "elastic stack",
   str "prometheus", str "grafana", str "kibana", str "logstash",
   str "fluentd", str "sentry", str "stripe", str "paypal", str "twilio",
   str "sendgrid", str "mailgun", str "auth0", str "firebase",
   str "amplify", str "sanity", str "contentful", str "strapi"]

/-- The `companies_brands` lexicon of `setup_knowledge_bases` (source order,
exact duplicates dropped). -/
def companiesBrands : List (List Char) :=
  [str "google", str "microsoft", str "amazon", str "apple", str "meta",
   str "facebook", str "netflix", str "uber", str "airbnb", str "spotify",
   str "slack", str "discord", str "zoom", str "salesforce", str "oracle",
   str "ibm", str "intel", str "nvidia", str "amd", str "qualcomm",
   str "tesla", str "spacex", str "openai", str "anthropic",
   str "hugging face", str "databricks", str "snowflake", str "palantir",
   str "stripe", str "shopify", str "square", str "paypal", str "adobe",
   str "autodesk", str "unity", str "epic games", str "valve", str "steam",
   str "github", str "gitlab", str "atlassian", str "jira",
   str "confluence", str "trello", str "notion", str "airtable",
   str "figma", str "sketch", str "canva", str "dropbox", str "box",
   str "onedrive", str "icloud"]

/-- The `file_formats` lexicon of `setup_knowledge_bases` (source order,
exact duplicates dropped). -/
def fileFormats : List (List Char) :=
  [str "json", str "xml", str "yaml", str "toml", str "ini", str "csv",
   str "tsv", str "excel", str "pdf", str "docx", str "pptx", str "xlsx",
   str "odt", str "ods", str "odp", str "html", str "css", str "js",
   str "ts", str "jsx", str "tsx", str "vue", str "svelte", str "py",
   str "java", str "cpp", str "c", str "h", str "hpp", str "cs", str "go",
   str "rs", str "swift", str "kt", str "php", str "rb", str "scala",
   str "r", str "matlab", str "m", str "sql", str "md", str "txt",
   str "log", str "conf", str "config", str "env", str "dockerfile",
   str "docker-compose", str "makefile", str "cmake", str "png", str "jpg",
   str "jpeg", str "gif", str "svg", str "webp", str "ico", str "mp4",
   str "avi", str "mov", str "wmv", str "flv", str "webm", str "mkv",
   str "mp3", str "wav", str "flac", str "aac", str "ogg", str "wma",
   str "zip", str "tar", str "gz", str "bz2", str "xz", str "7z", str "rar"]

/-- The `apis_protocols` lexicon of `setup_knowledge_bases` (source order,
exact duplicates dropped). -/
def apisProtocols : List (List Char) :=
  [str "rest", str "restful", str "graphql", str "grpc", str "soap",
   str "websocket", str "http", str "https", str "ftp", str "sftp",
   str "ssh", str "tcp", str "udp", str "smtp", str "pop3", str "imap",
   str "dns", str "dhcp", str "snmp", str "oauth", str "oauth2", str "jwt",
   str "saml", str "openid", str "ldap", str "api", str "webhook",
   str "rpc", str "json-rpc", str "xml-rpc", str "mqtt", str "amqp",
   str "stomp", str "sse"]

/-- The `technical_concepts` lexicon of `setup_knowledge_bases` (source order,
exact duplicates dropped). -/
def technicalConcepts : List (List Char) :=
  [str "machine learning", str "deep learning",
   str "artificial intelligence", str "neural network",
   str "computer vision", str "natural language processing",
   str "data science", str "big data", str "data mining",
   str "data analytics", str "cloud computing", str "edge computing",
   str "serverless", str "microservices", str "containerization",
   str "virtualization", str "devops", str "ci/cd", str "agile",
   str "scrum", str "kanban", str "test driven development", str "tdd",
   str "behavior driven development", str "bdd", str "domain driven design",
   str "ddd", str "clean architecture", str "solid principles",
   str "design patterns", str "blockchain", str "cryptocurrency",
   str "smart contracts", str "defi", str "web3", str "metaverse",
   str "augmented reality", str "virtual reality", str "internet of things",
   str "iot", str "cybersecurity", str "penetration testing",
   str "ethical hacking", str "encryption", str "cryptography", str "ssl",
   str "tls", str "load balancing", str "caching", str "cdn",
   str "database optimization", str "performance tuning", str "scalability",
   str "high availability", str "disaster recovery", str "backup",
   str "monitoring", str "logging", str "debugging", str "profiling",
   str "code review", str "pair programming", str "open source",
   str "version control", str "git", str "continuous integration",
   str "continuous deployment", str "infrastructure as code",
   str "automation"]


/-- A `MatchedEntity`: Python dict `{'text', 'confidence', 'category'}`. -/
structure Entity where
  text : List Char
  confidence : Rat
  category : List Char
deriving DecidableEq, Repr

/-- The engine state built by `setup_knowledge_bases`: the seven
lexicon attributes.  (The pattern attributes of `setup_patterns` are
fixed data transcribed above and are never written after construction.) -/
structure Processor where
  programming_languages : List (List Char)
  frameworks_libraries : List (List Char)
  platforms_services : List (List Char)
  companies_brands : List (List Char)
  file_formats : List (List Char)
  apis_protocols : List (List Char)
  technical_concepts : List (List Char)
deriving DecidableEq, Repr

/-- The processor as constructed by `AdvancedNLPProcessor.__init__`. -/
def setupProcessor : Processor :=
  ⟨programmingLanguages, frameworksLibraries, platformsServices,
   companiesBrands, fileFormats, apisProtocols, technicalConcepts⟩

/-- `AdvancedNLPProcessor.get_entity_category`: case-insensitive
membership test against the seven lexicons in the source's fixed
`if`/`elif` order, with `'unknown'` as the fallback. -/
def get_entity_categoryP (p : Processor) (entity : List Char) : List Char :=
  let el := lowerL entity
  if p.programming_languages.contains el then str "programming_language"
  else if p.frameworks_libraries.contains el then str "framework_library"
  else if p.platforms_services.contains el then str "platform_service"
  else if p.companies_brands.contains el then str "company_brand"
  else if p.file_formats.contains el then str "file_format"
  else if p.apis_protocols.contains el then str "api_protocol"
  else if p.technical_concepts.contains el then str "technical_concept"
  else str "unknown"

/-- `get_entity_category` on the constructed processor. -/
def get_entity_category (entity : List Char) : List Char :=
  get_entity_categoryP setupProcessor entity

example : get_entity_category (str "JSON") = str "programming_language" := by decide
example : get_entity_category (str "github") = str "platform_service" := by decide
example : get_entity_category (str "zzz") = str "unknown" := by decide

/-- The deduplication key: the lower-cased entity text
(`entity['text'].lower()`). -/
def keyOf (e : Entity) : List Char := lowerL e.text

/-- One step of the `unique_entities` dict build: a new key is
appended; an existing key keeps its position and is overwritten only by
a strictly higher confidence (Python dict update-in-place semantics). -/
def upsert : List Entity → Entity → List Entity
  | [], e => [e]
  | x :: xs, e =>
    if keyOf x = keyOf e then
      (if e.confidence > x.confidence then e :: xs else x :: xs)
    else x :: upsert xs e

/-- Stable insertion (descending confidence): the new element goes
before the first strictly-later element of no larger confidence. -/
def insConfDesc (e : Entity) : List Entity → List Entity
  | [] => [e]
  | x :: xs =>
    if e.confidence ≥ x.confidence then e :: x :: xs else x :: insConfDesc e xs

/-- Python `sorted(..., key=confidence, reverse=True)`: a stable sort,
descending in confidence, modelled by stable insertion sort. -/
def sortConfDesc : List Entity → List Entity
  | [] => []
  | e :: l => insConfDesc e (sortConfDesc l)

/-- The pre-deduplication candidate list of
`extract_entities_by_category`: one record per lexicon term found as a
substring of the lower-cased text, in lexicon iteration order. -/
def entityCandidates (p : Processor) (text : List Char) (kb : List (List Char)) :
    List Entity :=
  let text_lower := lowerL text
  let words := pySplit text_lower
  kb.filterMap (fun e =>
    let el := lowerL e
    if containsSub el text_lower then
      some ⟨e, calculate_confidence text_lower el words, get_entity_categoryP p e⟩
    else none)

/-- The `unique_entities` dict of `extract_entities_by_category`, as an
insertion-ordered association list keyed by `keyOf`. -/
def dedupEntities (l : List Entity) : List Entity := l.foldl upsert []

/-- `AdvancedNLPProcessor.extract_entities_by_category`: candidates,
deduplicated by lower-cased text keeping the higher confidence, sorted
by confidence descending (stably). -/
def extract_entities_by_categoryP (p : Processor) (text : List Char)
    (kb : List (List Char)) : List Entity :=
  sortConfDesc (dedupEntities (entityCandidates p text kb))

/-- `extract_entities_by_category` on the constructed processor. -/
def extract_entities_by_category (text : List Char) (kb : List (List Char)) :
    List Entity :=
  extract_entities_by_categoryP setupProcessor text kb

/-- Sum of the confidences of a list of entities. -/
def sumConfE (l : List Entity) : Rat := l.foldl (fun a e => a + e.confidence) 0

/-- Sum of the confidences of a list of snippets. -/
def sumConfS (l : List Snippet) : Rat := l.foldl (fun a s => a + s.confidence) 0

/-- Sum of the confidences of a list of commands. -/
def sumConfC (l : List Command) : Rat := l.foldl (fun a c => a + c.confidence) 0

/-- Exact division of a rational by a positive natural (the float
division in the summary scores, with the `max(len, 1)` guard). -/
def ratDivNat (a : Rat) (n : Nat) : Rat := a * mkRat 1 n

/-- The result dict of `process_text`. -/
structure ExtractionResult where
  urls : List (List Char)
  tools_and_software : List Entity
  programming_languages : List (List Char)
  frameworks_and_libraries : List (List Char)
  platforms_and_services : List (List Char)
  companies_and_brands : List (List Char)
  file_formats : List (List Char)
  apis_and_protocols : List (List Char)
  technical_concepts : List (List Char)
  code_snippets : List Snippet
  commands : List Command
  confidence_scores : List (List Char × Rat)
deriving DecidableEq, Repr

/-- The early-return value of `process_text` for falsy text: every
collection empty, and an empty `confidence_scores` dict. -/
def emptyResult : ExtractionResult := ⟨[], [], [], [], [], [], [], [], [], [], [], []⟩

/-- The software-ish keywords of the `tools_and_software` merge. -/
def toolKeywords : List (List Char) :=
  [str "tool", str "software", str "app", str "platform"]

/-- `AdvancedNLPProcessor.process_text` over an explicit processor
state: the early return on empty text, otherwise URL, per-category
entity, snippet and command extraction, the `tools_and_software`
merge, and the four summary confidence scores. -/
def process_textP (p : Processor) (text : List Char) : ExtractionResult :=
  if text = [] then emptyResult
  else
    let urls := extract_urls text
    let programming_langs := extract_entities_by_categoryP p text p.programming_languages
    let frameworks := extract_entities_by_categoryP p text p.frameworks_libraries
    let platforms := extract_entities_by_categoryP p text p.platforms_services
    let companies := extract_entities_by_categoryP p text p.companies_brands
    let fileFmts := extract_entities_by_categoryP p text p.file_formats
    let apis := extract_entities_by_categoryP p text p.apis_protocols
    let concepts := extract_entities_by_categoryP p text p.technical_concepts
    let tools := frameworks ++ platforms ++ concepts.filter (fun item =>
      toolKeywords.any (fun k => containsSub k (lowerL item.text)))
    let snippets := extract_code_snippets text
    let cmds := extract_commands text
    let scores :=
      [(str "url_extraction", if urls ≠ [] then mkRat 19 20 else 0),
       (str "entity_extraction", ratDivNat (sumConfE tools) (max tools.length 1)),
       (str "code_detection", ratDivNat (sumConfS snippets) (max snippets.length 1)),
       (str "command_detection", ratDivNat (sumConfC cmds) (max cmds.length 1))]
    ⟨urls, tools, programming_langs.map Entity.text, frameworks.map Entity.text,
     platforms.map Entity.text, companies.map Entity.text, fileFmts.map Entity.text,
     apis.map Entity.text, concepts.map Entity.text, snippets, cmds, scores⟩

/-- `process_text` on the constructed processor. -/
def process_text (text : List Char) : ExtractionResult :=
  process_textP setupProcessor text

/-- The method-call view of `process_text`: the Python method reads
`self` and assigns no attribute, so the state component is returned
unchanged. -/
def process_text_st (p : Processor) (text : List Char) :
    Processor × ExtractionResult :=
  (p, process_textP p text)

/-! ### Helper lemmas -/

theorem char_le_iff (a b : Char) : a ≤ b ↔ a.toNat ≤ b.toNat := by
  rw [Char.le_def]
  rfl

theorem char_toNat_ofNat (n : Nat) (h : n < 55296) : (Char.ofNat n).toNat = n := by
  unfold Char.ofNat
  rw [dif_pos (Or.inl h)]
  simp [Char.ofNatAux, Char.toNat, UInt32.toNat]

theorem asciiLower_idem (c : Char) : asciiLower (asciiLower c) = asciiLower c := by
  unfold asciiLower
  by_cases h : 'A' ≤ c ∧ c ≤ 'Z'
  · rw [if_pos h]
    have h0 : 65 ≤ c.toNat := (char_le_iff 'A' c).mp h.1
    have h1 : c.toNat ≤ 90 := (char_le_iff c 'Z').mp h.2
    have ht : (Char.ofNat (c.toNat + 32)).toNat = c.toNat + 32 :=
      char_toNat_ofNat _ (by omega)
    rw [if_neg]
    intro hcon
    have h2 := (char_le_iff _ 'Z').mp hcon.2
    have hz : ('Z').toNat = 90 := rfl
    rw [ht, hz] at h2
    omega
  · rw [if_neg h, if_neg h]

theorem lowerL_idem (t : List Char) : lowerL (lowerL t) = lowerL t := by
  induction t with
  | nil => rfl
  | cons c t ih => simp [lowerL] at ih ⊢; exact ⟨asciiLower_idem c, ih⟩

/-! ### C9: determinism of `process_text` -/

/-- C9.  Two calls of `process_text` on the identical input yield the
identical result, and the call leaves the processor state unchanged
(the method reads `self` and writes no attribute): the engine is
deterministic, with no hidden state affecting the output across calls. -/
theorem C9_process_deterministic :
    ∀ (p : Processor) (text : List Char),
      (process_text_st p text).1 = p ∧
      (process_text_st ((process_text_st p text).1) text).2 =
        (process_text_st p text).2 := by
  intro p text
  exact ⟨rfl, rfl⟩

/-! ### C2: `process_text` on empty text -/

/-- C2, counterexample.  On the empty text the returned
`confidence_scores` map is the empty dict `{}`, not a map with the four
fixed keys `url_extraction`, `entity_extraction`, `code_detection`,
`command_detection`: the early return of `process_text` builds
`'confidence_scores': {}`. -/
theorem C2_empty_scores_counterexample :
    ¬ ((process_text (str "")).confidence_scores.map Prod.fst =
        [str "url_extraction", str "entity_extraction",
         str "code_detection", str "command_detection"]) := by
  decide

/-- C2, amended.  On the empty text `process_text` returns (without
raising) the result whose every collection is empty and whose
`confidence_scores` is the empty map (not a four-key map of zeros). -/
theorem C2_empty_text :
    process_text (str "") = emptyResult ∧
    (process_text (str "")).confidence_scores = [] := by
  decide

/-! ### C3: the fenced-block example -/

/-- C3, counterexample.  On the text
```` ```javascript\nconst x = 1;\n``` ```` the snippet list does not
have exactly one entry: the inline-code pattern also fires across the
fence backticks, so there are two. -/
theorem C3_snippet_counterexample :
    (extract_code_snippets (str "```javascript\nconst x = 1;\n```")).length ≠ 1 := by
  decide

/-- C3, amended.  On that text the snippet list holds exactly one
`code_block` entry, with language `javascript`, code `const x = 1;`
and confidence `0.9` — followed by one spurious `inline_code` entry of
confidence `0.6` whose text spans from inside the opening fence to the
closing fence (the single-backtick pattern matching across the
fences). -/
theorem C3_snippets :
    extract_code_snippets (str "```javascript\nconst x = 1;\n```") =
      [⟨str "code_block", str "javascript", str "const x = 1;", mkRat 9 10⟩,
       ⟨str "inline_code", str "unknown", str "javascript\nconst x = 1;", mkRat 3 5⟩] := by
  decide

/-! ### C7: category lookup priority order -/

/-- The fixed priority order of the specification: the category sets
paired with their labels, highest priority first. -/
def categoryPriority (p : Processor) : List (List (List Char) × List Char) :=
  [(p.programming_languages, str "programming_language"),
   (p.frameworks_libraries, str "framework_library"),
   (p.platforms_services, str "platform_service"),
   (p.companies_brands, str "company_brand"),
   (p.file_formats, str "file_format"),
   (p.apis_protocols, str "api_protocol"),
   (p.technical_concepts, str "technical_concept")]

/-- First category in a priority list whose set holds the term. -/
def findCat (term : List Char) : List (List (List Char) × List Char) → List Char
  | [] => str "unknown"
  | sc :: rest => if sc.1.contains term then sc.2 else findCat term rest

/-- The specification's lookup: the first category in the fixed
priority order whose lexicon set contains the lower-cased term,
`unknown` when none does. -/
def lookupCategorySpec (p : Processor) (term : List Char) : List Char :=
  findCat (lowerL term) (categoryPriority p)

/-- C7.  The category lookup returns the first category in the fixed
priority order (language, framework, platform, company, file format,
protocol, concept) whose lexicon set contains the lower-cased term —
`unknown` when none does — and it is case-insensitive. -/
theorem C7_category_lookup :
    ∀ term : List Char,
      get_entity_category term = lookupCategorySpec setupProcessor term ∧
      get_entity_category term = get_entity_category (lowerL term) := by
  intro term
  constructor
  · rfl
  · unfold get_entity_category get_entity_categoryP
    rw [lowerL_idem]

/-! ### C1: the `npm install` example -/

/-- C1, counterexample.  On the text `npm install express mongoose` no
extracted entry's `command` field is that substring (nor the tool name
with its subcommand): `re.findall` on a pattern with one capture group
yields only the group, here the bare tool name `npm`. -/
theorem C1_command_counterexample :
    ¬ ∃ e ∈ extract_commands (str "npm install express mongoose"),
        e.command = str "npm install express mongoose" ∧
        e.confidence = mkRat 4 5 := by
  decide

theorem scanAF_cons {α : Type} (step : Option Char → List Char → Option (α × Nat))
    (f : Nat) (prev : Option Char) (c : Char) (rest : List Char) (v : α) (k : Nat)
    (h : step prev (c :: rest) = some (v, k)) :
    scanAF step (f + 1) prev (c :: rest) =
      v :: scanAF step f ((c :: rest).take (max k 1)).getLast?
        ((c :: rest).drop (max k 1)) := by
  simp [scanAF, h]

/-- C1, amended.  For every text that begins with
`npm install express mongoose`, the extracted commands contain an
entry whose `command` field is the captured tool name `npm` with type
`cli_command` and confidence exactly `0.8` (the full
tool-plus-subcommand substring is matched but only the group is
recorded). -/
theorem C1_npm_command :
    ∀ post : List Char,
      (⟨str "npm", str "cli_command", mkRat 4 5⟩ : Command) ∈
        extract_commands (str "npm install express mongoose" ++ post) := by
  intro post
  unfold extract_commands cliPatterns
  simp only [List.foldl_cons, List.foldl_nil, List.nil_append]
  apply List.mem_append_right
  have hform : str "npm install express mongoose" ++ post =
      'n' :: (str "pm install express mongoose" ++ post) := rfl
  have hstep : cliStep [str "npm", str "yarn", str "pip", str "composer",
      str "gem", str "cargo", str "go"] none
      ('n' :: (str "pm install express mongoose" ++ post)) =
      some (str "npm", 11) := rfl
  have h28 : (str "npm install express mongoose").length = 28 := rfl
  have hlen : (str "npm install express mongoose" ++ post).length =
      (27 + post.length) + 1 := by
    rw [List.length_append, h28]
    omega
  have hmem : str "npm" ∈
      scanA (cliStep [str "npm", str "yarn", str "pip", str "composer",
        str "gem", str "cargo", str "go"]) none
      (str "npm install express mongoose" ++ post) := by
    unfold scanA
    rw [hlen, hform]
    rw [scanAF_cons _ _ _ _ _ _ _ hstep]
    exact List.mem_cons_self _ _
  exact List.mem_map_of_mem _ hmem

/-! ### C4: the confidence formula -/

/-- The specification's context window read literally: the keyword may
sit within 5 tokens on either side of the term's token, indices
`pos - 5 .. pos + 5` inclusive. -/
def windowClaim (words : List (List Char)) (pos : Nat) : List (List Char) :=
  (words.drop (pos - 5)).take (min words.length (pos + 6) - (pos - 5))

/-- The scorer as the specification sentence states it: base `0.5`,
`+0.3` on a boundary match, `+min(0.2, occ * 0.05)` when `occ > 1`,
`+0.1` when a keyword occurs within 5 tokens on either side of a token
containing the term, clamped to `1.0`. -/
def specConfidenceClaim (text entity : List Char) (words : List (List Char)) : Rat :=
  min 1 (mkRat 1 2
    + (if hasBMatch text entity then mkRat 3 10 else 0)
    + (if pyCount text entity > 1 then
         min (mkRat 1 5) (mkRat (pyCount text entity) 20) else 0)
    + (if (entityPositions entity words).any (fun pos =>
         technicalKeywords.any (fun k => (windowClaim words pos).contains k))
       then mkRat 1 10 else 0))

/-- The scorer with the window the code actually uses: the Python
slice `words[pos-5 : pos+5]`, 5 tokens before through 4 after. -/
def specConfidenceAmended (text entity : List Char) (words : List (List Char)) : Rat :=
  min 1 (mkRat 1 2
    + (if hasBMatch text entity then mkRat 3 10 else 0)
    + (if pyCount text entity > 1 then
         min (mkRat 1 5) (mkRat (pyCount text entity) 20) else 0)
    + (if (entityPositions entity words).any (fun pos => ctxHit words pos)
       then mkRat 1 10 else 0))

/-- C4, counterexample.  For the text `python a b c d using` and the
term `python`, the keyword `using` sits exactly 5 tokens after the
term's token, inside the claimed window but outside the slice
`words[pos-5 : pos+5]` the code takes, so the claimed formula gives
`0.9` while the code returns `0.8`. -/
theorem C4_confidence_counterexample :
    specConfidenceClaim (str "python a b c d using") (str "python")
        (pySplit (str "python a b c d using")) ≠
      calculate_confidence (str "python a b c d using") (str "python")
        (pySplit (str "python a b c d using")) := by
  decide

theorem ctxLoop_eq (words : List (List Char)) (b : Rat) (ps : List Nat) :
    ctxLoop words b ps =
      b + (if ps.any (fun p => ctxHit words p) then mkRat 1 10 else 0) := by
  induction ps with
  | nil => simp [ctxLoop]
  | cons p rest ih =>
    by_cases h : ctxHit words p
    · simp [ctxLoop, h]
    · simp [ctxLoop, h, ih]

/-- C4, amended.  The scorer returns exactly
`min(1, 0.5 + [0.3 if the term has a regex word-boundary match]
+ [min(0.2, occ * 0.05) if occ > 1]
+ [0.1 if a keyword lies in the slice words[pos-5 : pos+5] — 5 tokens
before through 4 tokens after — of some token containing the term])`:
the bonuses sum and the total is clamped. -/
theorem C4_confidence_formula :
    ∀ (text entity : List Char) (words : List (List Char)),
      calculate_confidence text entity words =
        specConfidenceAmended text entity words := by
  intro t e w
  simp only [calculate_confidence, specConfidenceAmended]
  rw [ctxLoop_eq]
  congr 1
  split_ifs <;> ring

/-! ### C8 and C10: confidence bounds -/

theorem mkRat_nat_nonneg (n d : Nat) : (0 : Rat) ≤ mkRat n d := by
  rw [Rat.mkRat_eq_div]
  positivity

theorem ctxLoop_ge (words : List (List Char)) (b : Rat) (ps : List Nat) :
    b ≤ ctxLoop words b ps := by
  induction ps with
  | nil => exact le_refl b
  | cons p rest ih =>
    by_cases h : ctxHit words p
    · simp only [ctxLoop, h, if_pos]
      exact le_add_of_nonneg_right (by decide)
    · simpa only [ctxLoop, h, if_neg, Bool.false_eq_true] using ih

theorem calc_conf_bounds (t e : List Char) (w : List (List Char)) :
    mkRat 1 2 ≤ calculate_confidence t e w ∧ calculate_confidence t e w ≤ 1 := by
  simp only [calculate_confidence]
  set b2 := if hasBMatch t e then mkRat 1 2 + mkRat 3 10 else mkRat 1 2 with hb2
  set b3 := if pyCount t e > 1 then
      b2 + min (mkRat 1 5) (mkRat (pyCount t e) 20) else b2 with hb3
  have h2 : mkRat 1 2 ≤ b2 := by
    rw [hb2]
    split_ifs
    · exact le_add_of_nonneg_right (by decide)
    · exact le_refl _
  have h3 : b2 ≤ b3 := by
    rw [hb3]
    split_ifs
    · refine le_add_of_nonneg_right (le_min (by decide) ?_)
      exact_mod_cast mkRat_nat_nonneg (pyCount t e) 20
    · exact le_refl _
  have h4 : b3 ≤ ctxLoop w b3 (entityPositions e w) := ctxLoop_ge w b3 _
  constructor
  · exact le_min (by decide) (le_trans h2 (le_trans h3 h4))
  · exact min_le_left _ _

theorem mem_insConfDesc (x e : Entity) (l : List Entity) :
    x ∈ insConfDesc e l ↔ x = e ∨ x ∈ l := by
  induction l with
  | nil => simp [insConfDesc]
  | cons y ys ih =>
    simp only [insConfDesc]
    split_ifs with h
    · simp [List.mem_cons]
    · simp only [List.mem_cons, ih]
      tauto

theorem mem_sortConfDesc (x : Entity) (l : List Entity) :
    x ∈ sortConfDesc l ↔ x ∈ l := by
  induction l with
  | nil => simp [sortConfDesc]
  | cons y ys ih => simp [sortConfDesc, mem_insConfDesc, ih]

theorem mem_upsert (x e : Entity) (acc : List Entity) :
    x ∈ upsert acc e → x ∈ acc ∨ x = e := by
  induction acc with
  | nil => simp [upsert]
  | cons y ys ih =>
    simp only [upsert]
    split_ifs with h1 h2
    · simp only [List.mem_cons]
      tauto
    · simp only [List.mem_cons]
      tauto
    · simp only [List.mem_cons]
      intro h
      rcases h with h | h
      · tauto
      · rcases ih h with h' | h' <;> tauto

theorem mem_foldl_upsert (es : List Entity) :
    ∀ (acc : List Entity) (x : Entity),
      x ∈ List.foldl upsert acc es → x ∈ acc ∨ x ∈ es := by
  induction es with
  | nil => intro acc x h; exact Or.inl h
  | cons e rest ih =>
    intro acc x h
    rcases ih (upsert acc e) x h with h' | h'
    · rcases mem_upsert x e acc h' with h'' | h''
      · exact Or.inl h''
      · exact Or.inr (by simp [h''])
    · exact Or.inr (List.mem_cons_of_mem _ h')

theorem mem_dedupEntities (x : Entity) (l : List Entity) :
    x ∈ dedupEntities l → x ∈ l := by
  intro h
  rcases mem_foldl_upsert l [] x h with h' | h'
  · cases h'
  · exact h'

theorem candidate_confidence (p : Processor) (t : List Char)
    (kb : List (List Char)) (x : Entity) (hx : x ∈ entityCandidates p t kb) :
    ∃ term, x.confidence =
      calculate_confidence (lowerL t) (lowerL term) (pySplit (lowerL t)) := by
  simp only [entityCandidates, List.mem_filterMap] at hx
  obtain ⟨a, _, hfa⟩ := hx
  by_cases hc : containsSub (lowerL a) (lowerL t)
  · simp only [hc, if_pos] at hfa
    refine ⟨a, ?_⟩
    rw [← Option.some_inj.mp hfa]
  · simp [hc] at hfa

theorem entity_conf_bounds (p : Processor) (t : List Char) (kb : List (List Char))
    (x : Entity) (hx : x ∈ extract_entities_by_categoryP p t kb) :
    mkRat 1 2 ≤ x.confidence ∧ x.confidence ≤ 1 := by
  have h1 : x ∈ entityCandidates p t kb := by
    apply mem_dedupEntities
    exact (mem_sortConfDesc x _).mp hx
  obtain ⟨term, hterm⟩ := candidate_confidence p t kb x h1
  rw [hterm]
  exact calc_conf_bounds _ _ _

theorem snippet_conf_values (t : List Char) (s : Snippet)
    (hs : s ∈ extract_code_snippets t) :
    s.confidence = mkRat 9 10 ∨ s.confidence = mkRat 3 5 := by
  simp only [extract_code_snippets, List.mem_append, List.mem_map,
    List.mem_filterMap] at hs
  rcases hs with ⟨a, _, ha⟩ | ⟨a, _, ha⟩
  · left
    rw [← ha]
  · right
    by_cases hl : (stripEnds isSpacePy a).length > 2
    · simp only [hl, if_pos] at ha
      rw [← Option.some_inj.mp ha]
    · simp [hl] at ha

theorem command_conf_values (t : List Char) (c : Command)
    (hc : c ∈ extract_commands t) : c.confidence = mkRat 4 5 := by
  have main : ∀ (pats : List (List (List Char))) (acc : List Command),
      c ∈ List.foldl (fun acc alts =>
        acc ++ (scanA (cliStep alts) none t).map (fun g =>
          ⟨stripEnds isSpacePy g, str "cli_command", mkRat 4 5⟩)) acc pats →
      c ∈ acc ∨ c.confidence = mkRat 4 5 := by
    intro pats
    induction pats with
    | nil => intro acc h; exact Or.inl h
    | cons alts rest ih =>
      intro acc h
      rcases ih _ h with h' | h'
      · rcases List.mem_append.mp h' with h'' | h''
        · exact Or.inl h''
        · obtain ⟨g, _, hg⟩ := List.mem_map.mp h''
          right
          rw [← hg]
      · exact Or.inr h'
  rcases main cliPatterns [] hc with h | h
  · cases h
  · exact h

/-- C8.  Every matched entity, code snippet and command the engine
produces carries a confidence in the closed interval `[0, 1]`. -/
theorem C8_confidence_range :
    ∀ (p : Processor) (text : List Char) (kb : List (List Char)),
      (∀ e ∈ extract_entities_by_categoryP p text kb,
        0 ≤ e.confidence ∧ e.confidence ≤ 1) ∧
      (∀ s ∈ extract_code_snippets text, 0 ≤ s.confidence ∧ s.confidence ≤ 1) ∧
      (∀ c ∈ extract_commands text, 0 ≤ c.confidence ∧ c.confidence ≤ 1) := by
  intro p text kb
  refine ⟨?_, ?_, ?_⟩
  · intro e he
    have h := entity_conf_bounds p text kb e he
    exact ⟨le_trans (by decide) h.1, h.2⟩
  · intro s hs
    rcases snippet_conf_values text s hs with h | h <;> rw [h] <;> exact ⟨by decide, by decide⟩
  · intro c hc
    rw [command_conf_values text c hc]
    exact ⟨by decide, by decide⟩

/-- C8, witness. -/
theorem C8_confidence_range_witness :
    (⟨str "docker", str "cli_command", mkRat 4 5⟩ : Command) ∈
        extract_commands (str "docker run x") ∧
      (0 ≤ (mkRat 4 5 : Rat) ∧ (mkRat 4 5 : Rat) ≤ 1) :=
  ⟨by decide,
   (C8_confidence_range setupProcessor (str "docker run x") []).2.2
     ⟨str "docker", str "cli_command", mkRat 4 5⟩ (by decide)⟩

/-- C10.  Every matched entity's confidence lies in `[0.5, 1.0]`: the
scorer starts from the base `0.5` and only adds non-negative bonuses
before clamping, a strictly tighter range than the stated `[0, 1]`. -/
theorem C10_entity_confidence_tight :
    ∀ (p : Processor) (text : List Char) (kb : List (List Char)),
      ∀ e ∈ extract_entities_by_categoryP p text kb,
        mkRat 1 2 ≤ e.confidence ∧ e.confidence ≤ 1 := by
  intro p text kb e he
  exact entity_conf_bounds p text kb e he

/-- C10, witness. -/
theorem C10_entity_confidence_tight_witness :
    (⟨str "python", mkRat 9 10, str "programming_language"⟩ : Entity) ∈
        extract_entities_by_categoryP setupProcessor (str "using python")
          [str "python"] ∧
      (mkRat 1 2 ≤ (mkRat 9 10 : Rat) ∧ (mkRat 9 10 : Rat) ≤ 1) :=
  ⟨by decide,
   C10_entity_confidence_tight setupProcessor (str "using python")
     [str "python"] ⟨str "python", mkRat 9 10, str "programming_language"⟩
     (by decide)⟩

/-! ### C5: the matcher contract -/

theorem mem_keys_upsert (k : List Char) (e : Entity) (acc : List Entity) :
    k ∈ (upsert acc e).map keyOf ↔ k ∈ acc.map keyOf ∨ k = keyOf e := by
  induction acc with
  | nil => simp [upsert]
  | cons y ys ih =>
    simp only [upsert]
    split_ifs with h1 h2
    · simp only [List.map_cons, List.mem_cons, h1]
      tauto
    · simp only [List.map_cons, List.mem_cons, h1]
      tauto
    · simp only [List.map_cons, List.mem_cons, ih]
      tauto

theorem keys_upsert_nodup (e : Entity) (acc : List Entity)
    (h : (acc.map keyOf).Nodup) : ((upsert acc e).map keyOf).Nodup := by
  induction acc with
  | nil => simp [upsert]
  | cons y ys ih =>
    simp only [List.map_cons, List.nodup_cons] at h
    simp only [upsert]
    split_ifs with h1 h2
    · simp only [List.map_cons, List.nodup_cons]
      refine ⟨?_, h.2⟩
      rw [h1] at h
      exact h.1
    · simp only [List.map_cons, List.nodup_cons]
      exact h
    · simp only [List.map_cons, List.nodup_cons]
      refine ⟨?_, ih h.2⟩
      rw [mem_keys_upsert]
      intro hc
      rcases hc with hc | hc
      · exact h.1 hc
      · exact h1 (hc ▸ rfl)

theorem dedup_keys_nodup (l : List Entity) :
    ((dedupEntities l).map keyOf).Nodup := by
  have main : ∀ (es acc : List Entity), (acc.map keyOf).Nodup →
      ((List.foldl upsert acc es).map keyOf).Nodup := by
    intro es
    induction es with
    | nil => intro acc h; exact h
    | cons e rest ih => intro acc h; exact ih _ (keys_upsert_nodup e acc h)
  exact main l [] (by simp)

theorem insConfDesc_perm (e : Entity) (l : List Entity) :
    (insConfDesc e l).Perm (e :: l) := by
  induction l with
  | nil => simp [insConfDesc]
  | cons y ys ih =>
    simp only [insConfDesc]
    split_ifs with h
    · exact List.Perm.refl _
    · exact (List.Perm.cons y ih).trans (List.Perm.swap e y ys)

theorem sortConfDesc_perm (l : List Entity) : (sortConfDesc l).Perm l := by
  induction l with
  | nil => simp [sortConfDesc]
  | cons e es ih =>
    exact (insConfDesc_perm e (sortConfDesc es)).trans (List.Perm.cons e ih)

theorem insConfDesc_pairwise (e : Entity) (l : List Entity)
    (h : l.Pairwise (fun a b => b.confidence ≤ a.confidence)) :
    (insConfDesc e l).Pairwise (fun a b => b.confidence ≤ a.confidence) := by
  induction l with
  | nil => simp [insConfDesc]
  | cons y ys ih =>
    rw [List.pairwise_cons] at h
    simp only [insConfDesc]
    split_ifs with h1
    · rw [List.pairwise_cons]
      constructor
      · intro z hz
        rcases List.mem_cons.mp hz with hz | hz
        · rw [hz]; exact h1
        · exact le_trans (h.1 z hz) h1
      · rw [List.pairwise_cons]
        exact h
    · rw [List.pairwise_cons]
      constructor
      · intro z hz
        rcases (mem_insConfDesc z e ys).mp hz with hz | hz
        · rw [hz]; exact le_of_not_ge h1
        · exact h.1 z hz
      · exact ih h.2

theorem sortConfDesc_pairwise (l : List Entity) :
    (sortConfDesc l).Pairwise (fun a b => b.confidence ≤ a.confidence) := by
  induction l with
  | nil => simp [sortConfDesc]
  | cons e es ih => exact insConfDesc_pairwise e (sortConfDesc es) ih

theorem filter_insConfDesc (c : Rat) (e : Entity) (l : List Entity) :
    (insConfDesc e l).filter (fun z => z.confidence = c) =
      if e.confidence = c then e :: l.filter (fun z => z.confidence = c)
      else l.filter (fun z => z.confidence = c) := by
  induction l with
  | nil =>
    simp only [insConfDesc, List.filter_cons, List.filter_nil, decide_eq_true_eq]
  | cons y ys ih =>
    by_cases h1 : e.confidence ≥ y.confidence
    · rw [show insConfDesc e (y :: ys) = e :: y :: ys from by
        simp [insConfDesc, h1]]
      simp only [List.filter_cons, decide_eq_true_eq]
    · rw [show insConfDesc e (y :: ys) = y :: insConfDesc e ys from by
        simp [insConfDesc, h1]]
      have hlt : e.confidence < y.confidence := lt_of_not_ge h1
      by_cases hec : e.confidence = c
      · have hyc : ¬ (y.confidence = c) := by
          intro hy
          rw [hec, hy] at hlt
          exact lt_irrefl c hlt
        simp [List.filter_cons, ih, hec, hyc]
      · simp [List.filter_cons, ih, hec]

theorem filter_sortConfDesc (c : Rat) (l : List Entity) :
    (sortConfDesc l).filter (fun z => z.confidence = c) =
      l.filter (fun z => z.confidence = c) := by
  induction l with
  | nil => rfl
  | cons e es ih =>
    simp only [sortConfDesc]
    rw [filter_insConfDesc]
    by_cases h : e.confidence = c
    · simp [List.filter_cons, h, ih]
    · simp [List.filter_cons, h, ih]

theorem upsert_key_dominates (e : Entity) (acc : List Entity) :
    ∃ x ∈ upsert acc e, keyOf x = keyOf e ∧ e.confidence ≤ x.confidence := by
  induction acc with
  | nil => exact ⟨e, by simp [upsert]⟩
  | cons y ys ih =>
    simp only [upsert]
    split_ifs with h1 h2
    · exact ⟨e, by simp, rfl, le_refl _⟩
    · exact ⟨y, by simp, h1, le_of_not_gt h2⟩
    · obtain ⟨x, hx, hk, hc⟩ := ih
      exact ⟨x, List.mem_cons_of_mem _ hx, hk, hc⟩

theorem upsert_preserves (x e : Entity) (acc : List Entity) (hx : x ∈ acc) :
    ∃ x' ∈ upsert acc e, keyOf x' = keyOf x ∧ x.confidence ≤ x'.confidence := by
  induction acc with
  | nil => cases hx
  | cons y ys ih =>
    simp only [upsert]
    rcases List.mem_cons.mp hx with hx1 | hx1
    · split_ifs with h1 h2
      · exact ⟨e, by simp, by rw [hx1, ← h1], by rw [hx1]; exact le_of_lt h2⟩
      · exact ⟨y, by simp, by rw [hx1], by rw [hx1]⟩
      · exact ⟨y, by simp, by rw [hx1], by rw [hx1]⟩
    · split_ifs with h1 h2
      · exact ⟨x, List.mem_cons_of_mem _ hx1, rfl, le_refl _⟩
      · exact ⟨x, List.mem_cons_of_mem _ hx1, rfl, le_refl _⟩
      · obtain ⟨x', hx', hk, hc⟩ := ih hx1
        exact ⟨x', List.mem_cons_of_mem _ hx', hk, hc⟩

theorem foldl_upsert_preserves (es : List Entity) :
    ∀ (acc : List Entity) (x : Entity), x ∈ acc →
      ∃ x' ∈ List.foldl upsert acc es,
        keyOf x' = keyOf x ∧ x.confidence ≤ x'.confidence := by
  induction es with
  | nil => intro acc x hx; exact ⟨x, hx, rfl, le_refl _⟩
  | cons e rest ih =>
    intro acc x hx
    obtain ⟨x1, hx1, hk1, hc1⟩ := upsert_preserves x e acc hx
    obtain ⟨x2, hx2, hk2, hc2⟩ := ih (upsert acc e) x1 hx1
    exact ⟨x2, hx2, hk2.trans hk1, le_trans hc1 hc2⟩

theorem dedup_dominates (l : List Entity) (y : Entity) (hy : y ∈ l) :
    ∃ x ∈ dedupEntities l, keyOf x = keyOf y ∧ y.confidence ≤ x.confidence := by
  have main : ∀ (es acc : List Entity), y ∈ es →
      ∃ x ∈ List.foldl upsert acc es,
        keyOf x = keyOf y ∧ y.confidence ≤ x.confidence := by
    intro es
    induction es with
    | nil => intro acc h; cases h
    | cons e rest ih =>
      intro acc h
      rcases List.mem_cons.mp h with h1 | h1
      · obtain ⟨x1, hx1, hk1, hc1⟩ := upsert_key_dominates e acc
        obtain ⟨x2, hx2, hk2, hc2⟩ := foldl_upsert_preserves rest (upsert acc e) x1 hx1
        exact ⟨x2, hx2, by rw [hk2, hk1, h1], by rw [h1]; exact le_trans hc1 hc2⟩
      · exact ih (upsert acc e) h1
  exact main l [] hy

/-- C5.  The category matcher returns at most one entity per distinct
case-insensitive key; the list is sorted by confidence descending; for
every confidence value the entities carrying it appear exactly as in
the deduplicated first-seen-order dict (Python's stable sort, so ties
keep first-seen term order of the lexicon iteration); and each
returned entity's confidence dominates every same-key candidate. -/
theorem C5_matcher_contract :
    ∀ (p : Processor) (text : List Char) (kb : List (List Char)),
      ((extract_entities_by_categoryP p text kb).map keyOf).Nodup ∧
      (extract_entities_by_categoryP p text kb).Pairwise
        (fun a b => b.confidence ≤ a.confidence) ∧
      (∀ c : Rat,
        (extract_entities_by_categoryP p text kb).filter
            (fun e => e.confidence = c) =
          (dedupEntities (entityCandidates p text kb)).filter
            (fun e => e.confidence = c)) ∧
      (∀ e ∈ extract_entities_by_categoryP p text kb,
        ∀ e' ∈ entityCandidates p text kb,
          keyOf e' = keyOf e → e'.confidence ≤ e.confidence) := by
  intro p text kb
  have hperm : (extract_entities_by_categoryP p text kb).Perm
      (dedupEntities (entityCandidates p text kb)) :=
    sortConfDesc_perm _
  have hnodupD := dedup_keys_nodup (entityCandidates p text kb)
  have hnodup : ((extract_entities_by_categoryP p text kb).map keyOf).Nodup :=
    ((hperm.map keyOf).nodup_iff).mpr hnodupD
  refine ⟨hnodup, sortConfDesc_pairwise _, fun c => filter_sortConfDesc c _, ?_⟩
  intro e he e' he' hk
  obtain ⟨x, hx, hkx, hcx⟩ := dedup_dominates (entityCandidates p text kb) e' he'
  have hxout : x ∈ extract_entities_by_categoryP p text kb :=
    (mem_sortConfDesc x _).mpr hx
  have hxe : x = e := by
    have hD : e ∈ dedupEntities (entityCandidates p text kb) :=
      (mem_sortConfDesc e _).mp he
    exact List.inj_on_of_nodup_map hnodupD hx hD (by rw [hkx, hk])
  rw [← hxe]
  exact hcx

/-- C5, witness. -/
theorem C5_matcher_contract_witness :
    ((extract_entities_by_categoryP setupProcessor (str "we like django")
        [str "django"]).map keyOf).Nodup ∧
    (mkRat 4 5 : Rat) ≤ mkRat 4 5 :=
  ⟨(C5_matcher_contract setupProcessor (str "we like django") [str "django"]).1,
   (C5_matcher_contract setupProcessor (str "we like django") [str "django"]).2.2.2
     ⟨str "django", mkRat 4 5, str "framework_library"⟩ (by decide)
     ⟨str "django", mkRat 4 5, str "framework_library"⟩ (by decide) (by decide)⟩

/-! ### C6: URL extraction -/

theorem head?_dropWhile (f : Char → Bool) (l : List Char) (c : Char)
    (h : (l.dropWhile f).head? = some c) : f c = false := by
  induction l with
  | nil => cases h
  | cons d t ih =>
    by_cases hd : f d
    · rw [List.dropWhile_cons_of_pos hd] at h
      exact ih h
    · rw [List.dropWhile_cons_of_neg hd] at h
      cases h
      exact Bool.eq_false_iff.mpr hd

theorem getLast?_stripEnds (f : Char → Bool) (l : List Char) (c : Char)
    (h : (stripEnds f l).getLast? = some c) : f c = false := by
  unfold stripEnds at h
  rw [List.getLast?_reverse] at h
  exact head?_dropWhile f _ c h

theorem mem_insertNew (x y : List Char) (acc : List (List Char)) :
    x ∈ insertNew acc y → x ∈ acc ∨ x = y := by
  unfold insertNew
  split_ifs with h
  · exact Or.inl
  · intro hx
    rcases List.mem_append.mp hx with h1 | h1
    · exact Or.inl h1
    · exact Or.inr (List.mem_singleton.mp h1)

theorem insertNew_preserve (x y : List Char) (acc : List (List Char))
    (hx : x ∈ acc) : x ∈ insertNew acc y := by
  unfold insertNew
  split_ifs with h
  · exact hx
  · exact List.mem_append_left _ hx

theorem foldl_insertNew_preserve (l : List (List Char)) :
    ∀ (acc : List (List Char)) (x : List Char), x ∈ acc →
      x ∈ List.foldl insertNew acc l := by
  induction l with
  | nil => intro acc x hx; exact hx
  | cons y rest ih => intro acc x hx; exact ih _ x (insertNew_preserve x y acc hx)

theorem mem_foldl_insertNew (l : List (List Char)) :
    ∀ (acc : List (List Char)) (x : List Char), x ∈ l →
      x ∈ List.foldl insertNew acc l := by
  induction l with
  | nil => intro acc x hx; cases hx
  | cons y rest ih =>
    intro acc x hx
    rcases List.mem_cons.mp hx with h1 | h1
    · rw [List.foldl_cons]
      apply foldl_insertNew_preserve
      unfold insertNew
      split_ifs with h
      · rw [h1]
        exact List.elem_iff.mp h
      · rw [h1]
        exact List.mem_append_right _ (List.mem_singleton.mpr rfl)
    · exact ih _ x h1

theorem mem_foldl_insertNew_sub (l : List (List Char)) :
    ∀ (acc : List (List Char)) (x : List Char),
      x ∈ List.foldl insertNew acc l → x ∈ acc ∨ x ∈ l := by
  induction l with
  | nil => intro acc x hx; exact Or.inl hx
  | cons y rest ih =>
    intro acc x hx
    rcases ih _ x hx with h1 | h1
    · rcases mem_insertNew x y acc h1 with h2 | h2
      · exact Or.inl h2
      · exact Or.inr (by simp [h2])
    · exact Or.inr (List.mem_cons_of_mem _ h1)

theorem nodup_insertNew (y : List Char) (acc : List (List Char))
    (h : acc.Nodup) : (insertNew acc y).Nodup := by
  unfold insertNew
  split_ifs with hc
  · exact h
  · rw [List.nodup_append]
    refine ⟨h, List.nodup_singleton y, ?_⟩
    intro a ha hb
    rw [List.mem_singleton.mp hb] at ha
    exact hc (List.elem_iff.mpr ha)

theorem nodup_foldl_insertNew (l : List (List Char)) :
    ∀ (acc : List (List Char)), acc.Nodup →
      (List.foldl insertNew acc l).Nodup := by
  induction l with
  | nil => intro acc h; exact h
  | cons y rest ih => intro acc h; exact ih _ (nodup_insertNew y acc h)

theorem mem_url_cands (text x : List Char)
    (hx : x ∈ urlPatterns.foldl (fun acc m =>
      acc ++ (findallM m text).filterMap (fun mt =>
        if stripEnds punctSet mt ≠ [] ∧ (stripEnds punctSet mt).length > 5
        then some (stripEnds punctSet mt) else none)) []) :
    ∃ mt, x = stripEnds punctSet mt ∧ x ≠ [] ∧ x.length > 5 := by
  have main : ∀ (ms : List (List Char → Option Nat)) (acc : List (List Char)),
      x ∈ List.foldl (fun acc m =>
        acc ++ (findallM m text).filterMap (fun mt =>
          if stripEnds punctSet mt ≠ [] ∧ (stripEnds punctSet mt).length > 5
          then some (stripEnds punctSet mt) else none)) acc ms →
      x ∈ acc ∨ ∃ mt, x = stripEnds punctSet mt ∧ x ≠ [] ∧ x.length > 5 := by
    intro ms
    induction ms with
    | nil => intro acc h; exact Or.inl h
    | cons m rest ih =>
      intro acc h
      rcases ih _ h with h1 | h1
      · rcases List.mem_append.mp h1 with h2 | h2
        · exact Or.inl h2
        · obtain ⟨mt, _, hmt⟩ := List.mem_filterMap.mp h2
          right
          by_cases hcond : stripEnds punctSet mt ≠ [] ∧
              (stripEnds punctSet mt).length > 5
          · rw [if_pos hcond] at hmt
            refine ⟨mt, ?_, ?_, ?_⟩
            · rw [← Option.some_inj.mp hmt]
            · rw [← Option.some_inj.mp hmt]; exact hcond.1
            · rw [← Option.some_inj.mp hmt]; exact hcond.2
          · simp [hcond] at hmt
      · exact Or.inr h1
  rcases main urlPatterns [] hx with h | h
  · cases h
  · exact h

theorem extract_urls_shape (text : List Char) :
    (extract_urls text).Nodup ∧
    ∀ u ∈ extract_urls text, 5 < u.length ∧
      ∀ c : Char, u.getLast? = some c → punctSet c = false := by
  constructor
  · exact nodup_foldl_insertNew _ [] List.nodup_nil
  · intro u hu
    have hc : ∃ mt, u = stripEnds punctSet mt ∧ u ≠ [] ∧ u.length > 5 := by
      rcases mem_foldl_insertNew_sub _ [] u hu with h | h
      · cases h
      · exact mem_url_cands text u h
    obtain ⟨mt, hmt, _, hlen⟩ := hc
    refine ⟨hlen, ?_⟩
    intro c hcl
    rw [hmt] at hcl
    exact getLast?_stripEnds punctSet mt c hcl

theorem space_cases (c : Char) (h : isSpacePy c = true) :
    c = ' ' ∨ c = '\t' ∨ c = '\n' ∨ c = '\r' ∨ c = '\x0b' ∨ c = '\x0c' := by
  simpa [isSpacePy] using h

theorem asciiLower_space (c : Char) (h : isSpacePy c = true) : asciiLower c = c := by
  rcases space_cases c h with h1|h1|h1|h1|h1|h1 <;> subst h1 <;> decide

theorem not_space_of (f : Char → Bool)
    (hf : f ' ' = false ∧ f '\t' = false ∧ f '\n' = false ∧ f '\r' = false ∧
      f '\x0b' = false ∧ f '\x0c' = false)
    (c : Char) (h : f c = true) : isSpacePy c = false := by
  cases hb : isSpacePy c
  · rfl
  · rcases space_cases c hb with h1|h1|h1|h1|h1|h1 <;> subst h1 <;> simp_all

theorem scanAF_none {α : Type} (step : Option Char → List Char → Option (α × Nat))
    (f : Nat) (p : Option Char) (c : Char) (rest : List Char)
    (h : step p (c :: rest) = none) :
    scanAF step (f + 1) p (c :: rest) = scanAF step f (some c) rest := by
  simp [scanAF, h]

theorem scanAF_congr {α : Type} (step : Option Char → List Char → Option (α × Nat))
    (hstep : ∀ (p q : Option Char) (s : List Char), step p s = step q s) :
    ∀ (f : Nat) (s : List Char) (p q : Option Char), s.length ≤ f →
      scanAF step f p s = scanAF step s.length q s := by
  intro f
  induction f using Nat.strong_induction_on with
  | _ f ih =>
    intro s p q h
    cases s with
    | nil =>
      cases f with
      | zero => rfl
      | succ g => rfl
    | cons c rest =>
      cases f with
      | zero => simp at h
      | succ g =>
        have hg : rest.length ≤ g := by
          simp only [List.length_cons] at h
          omega
        cases hs : step q (c :: rest) with
        | none =>
          rw [scanAF_none step g p c rest ((hstep p q (c :: rest)).trans hs)]
          rw [show (c :: rest).length = rest.length + 1 from rfl]
          rw [scanAF_none step rest.length q c rest hs]
          rw [ih g (Nat.lt_succ_self g) rest (some c) (some c) hg]
        | some vk =>
          obtain ⟨v, k⟩ := vk
          rw [scanAF_cons step g p c rest v k ((hstep p q (c :: rest)).trans hs)]
          rw [show (c :: rest).length = rest.length + 1 from rfl]
          rw [scanAF_cons step rest.length q c rest v k hs]
          congr 1
          have h1k : 1 ≤ max k 1 := le_max_right k 1
          have hdl : ((c :: rest).drop (max k 1)).length ≤ g := by
            simp only [List.length_drop, List.length_cons]
            omega
          have hdl2 : ((c :: rest).drop (max k 1)).length ≤ rest.length := by
            simp only [List.length_drop, List.length_cons]
            omega
          rw [ih g (Nat.lt_succ_self g) _ _ (((c :: rest).take (max k 1)).getLast?) hdl]
          rw [ih rest.length (Nat.lt_succ_of_le hg) _ _
            (((c :: rest).take (max k 1)).getLast?) hdl2]

/-- A consumer is `P`-capped when every character of any match
satisfies `P`. -/
def capP (m : List Char → Option Nat) (P : Char → Prop) : Prop :=
  ∀ s n, m s = some n → ∀ c ∈ s.take n, P c

theorem leadCount_take (f : Char → Bool) (s : List Char) :
    ∀ c ∈ s.take (leadCount f s), f c = true := by
  induction s with
  | nil => intro c hc; simp at hc
  | cons d t ih =>
    by_cases hd : f d
    · rw [show leadCount f (d :: t) = leadCount f t + 1 from by simp [leadCount, hd]]
      rw [List.take_succ_cons]
      intro c hc
      rcases List.mem_cons.mp hc with h1 | h1
      · rw [h1]; exact hd
      · exact ih c h1
    · rw [show leadCount f (d :: t) = 0 from by simp [leadCount, hd]]
      intro c hc
      simp at hc

theorem cap_munch1 (f : Char → Bool) (P : Char → Prop)
    (h : ∀ c, f c = true → P c) : capP (munch1 f) P := by
  intro s n hm c hc
  simp only [munch1] at hm
  by_cases hz : leadCount f s = 0
  · rw [if_pos hz] at hm
    exact Option.noConfusion hm
  · rw [if_neg hz] at hm
    rw [← Option.some.inj hm] at hc
    exact h c (leadCount_take f s c hc)

theorem cap_munch0 (f : Char → Bool) (P : Char → Prop)
    (h : ∀ c, f c = true → P c) : capP (munch0 f) P := by
  intro s n hm c hc
  simp only [munch0] at hm
  rw [← Option.some.inj hm] at hc
  exact h c (leadCount_take f s c hc)

theorem cap_lit (l : List Char) (P : Char → Prop) (h : ∀ c ∈ l, P c) :
    capP (lit l) P := by
  intro s n hm c hc
  unfold lit at hm
  by_cases ht : s.take l.length = l
  · rw [if_pos ht] at hm
    rw [← Option.some.inj hm, ht] at hc
    exact h c hc
  · rw [if_neg ht] at hm
    cases hm

theorem cap_litCI (l : List Char) (P : Char → Prop)
    (h : ∀ c : Char, asciiLower c ∈ l → P c) : capP (litCI l) P := by
  intro s n hm c hc
  unfold litCI at hm
  by_cases ht : lowerL (s.take l.length) = l
  · rw [if_pos ht] at hm
    rw [← Option.some.inj hm] at hc
    apply h
    rw [← ht]
    exact List.mem_map_of_mem asciiLower hc
  · rw [if_neg ht] at hm
    cases hm

theorem cap_mseq (a b : List Char → Option Nat) (P : Char → Prop)
    (ha : capP a P) (hb : capP b P) : capP (mseq a b) P := by
  intro s n hm c hc
  unfold mseq at hm
  cases h1 : a s with
  | none =>
    simp only [h1] at hm
    exact Option.noConfusion hm
  | some na =>
    simp only [h1] at hm
    cases h2 : b (s.drop na) with
    | none =>
      simp only [h2] at hm
      exact Option.noConfusion hm
    | some nb =>
      simp only [h2] at hm
      rw [← Option.some.inj hm, List.take_add s na nb] at hc
      rcases List.mem_append.mp hc with h3 | h3
      · exact ha s na h1 c h3
      · exact hb _ nb h2 c h3

theorem cap_mopt (a : List Char → Option Nat) (P : Char → Prop)
    (ha : capP a P) : capP (mopt a) P := by
  intro s n hm c hc
  unfold mopt at hm
  cases h1 : a s with
  | none =>
    simp only [h1] at hm
    rw [← Option.some.inj hm] at hc
    simp at hc
  | some na =>
    simp only [h1] at hm
    rw [← Option.some.inj hm] at hc
    exact ha s na h1 c hc

theorem cap_mfirst (ms : List (List Char → Option Nat)) (P : Char → Prop)
    (h : ∀ m ∈ ms, capP m P) : capP (mfirst ms) P := by
  induction ms with
  | nil => intro s n hm; cases hm
  | cons m rest ih =>
    intro s n hm c hc
    unfold mfirst at hm
    cases h1 : m s with
    | none =>
      simp only [h1] at hm
      exact ih (fun m' hm' => h m' (List.mem_cons_of_mem _ hm')) s n hm c hc
    | some na =>
      simp only [h1] at hm
      rw [← Option.some.inj hm] at hc
      exact h m (List.mem_cons_self _ _) s na h1 c hc

theorem nsp_of_lower_mem (l : List Char)
    (hl : ∀ d ∈ l, isSpacePy d = false) (c : Char)
    (hc : asciiLower c ∈ l) : isSpacePy c = false := by
  cases hb : isSpacePy c
  · rfl
  · have hlc : asciiLower c = c := asciiLower_space c hb
    rw [hlc] at hc
    rw [← hl c hc, hb]

theorem urlPat1_cap :
    capP urlPat1 (fun c => isSpacePy c = false) := by
  unfold urlPat1 urlTail
  apply cap_mseq
  · apply cap_mfirst
    intro m hm
    rcases List.mem_cons.mp hm with h1 | h1
    · rw [h1]
      exact cap_litCI _ _ (nsp_of_lower_mem _ (by decide))
    · rcases List.mem_cons.mp h1 with h2 | h2
      · rw [h2]
        exact cap_litCI _ _ (nsp_of_lower_mem _ (by decide))
      · simp at h2
  · apply cap_mseq
    · exact cap_munch1 _ _ (not_space_of hostChar (by decide))
    · apply cap_mseq
      · exact cap_munch0 _ _ (not_space_of portChar (by decide))
      · apply cap_mopt
        apply cap_mseq
        · exact cap_lit _ _ (by decide)
        · apply cap_mseq
          · exact cap_munch0 _ _ (not_space_of pathChar (by decide))
          · apply cap_mseq
            · apply cap_mopt
              apply cap_mseq
              · exact cap_lit _ _ (by decide)
              · exact cap_munch0 _ _ (not_space_of queryChar (by decide))
            · apply cap_mopt
              apply cap_mseq
              · exact cap_lit _ _ (by decide)
              · exact cap_munch0 _ _ (not_space_of fragChar (by decide))

theorem urlPat1_space (c : Char) (s : List Char) (h : isSpacePy c = true) :
    urlPat1 (c :: s) = none := by
  have hlc : asciiLower c = c := asciiLower_space c h
  have key : ∀ (d : Char) (t : List Char), asciiLower c ≠ d →
      litCI (d :: t) (c :: s) = none := by
    intro d t hne
    unfold litCI
    rw [if_neg]
    intro heq
    have hh := congrArg List.head? heq
    simp only [List.length_cons, List.take_succ_cons, lowerL, List.map_cons,
      List.head?] at hh
    exact hne (Option.some.inj hh)
  have hch : asciiLower c ≠ 'h' := by
    rw [hlc]
    intro hc
    subst hc
    simp [isSpacePy] at h
  have h1 : litCI (str "https://") (c :: s) = none := key 'h' (str "ttps://") hch
  have h2 : litCI (str "http://") (c :: s) = none := key 'h' (str "ttp://") hch
  show mseq (mfirst [litCI (str "https://"), litCI (str "http://")]) urlTail
    (c :: s) = none
  simp only [mseq, mfirst, h1, h2]

theorem scan_through (w : Char) (hw : isSpacePy w = true) (b x : List Char)
    (hx : x ∈ scanA (urlStep urlPat1) none b) :
    ∀ (n : Nat) (a : List Char) (p : Option Char), a.length ≤ n →
      x ∈ scanAF (urlStep urlPat1) (a ++ w :: b).length p (a ++ w :: b) := by
  have hirr : ∀ (p q : Option Char) (s : List Char),
      urlStep urlPat1 p s = urlStep urlPat1 q s := fun _ _ _ => rfl
  intro n
  induction n with
  | zero =>
    intro a p ha
    have ha0 : a = [] := List.eq_nil_of_length_eq_zero (Nat.le_zero.mp ha)
    subst ha0
    simp only [List.nil_append]
    rw [show (w :: b).length = b.length + 1 from rfl]
    rw [scanAF_none _ b.length p w b (by
      unfold urlStep
      rw [urlPat1_space w b hw])]
    rw [scanAF_congr _ hirr b.length b (some w) none (le_refl _)]
    exact hx
  | succ n ih =>
    intro a p ha
    cases a with
    | nil => exact ih [] p (by simp)
    | cons c a' =>
      simp only [List.cons_append]
      cases hs : urlStep urlPat1 p (c :: (a' ++ w :: b)) with
      | none =>
        rw [show (c :: (a' ++ w :: b)).length = (a' ++ w :: b).length + 1 from rfl]
        rw [scanAF_none _ _ p c _ hs]
        exact ih a' (some c) (by
          simp only [List.length_cons] at ha
          omega)
      | some vk =>
        obtain ⟨v, k⟩ := vk
        have hcap : ∀ ch ∈ (c :: (a' ++ w :: b)).take k, isSpacePy ch = false := by
          intro ch hch
          unfold urlStep at hs
          cases hp : urlPat1 (c :: (a' ++ w :: b)) with
          | none => rw [hp] at hs; cases hs
          | some nn =>
            rw [hp] at hs
            have hkn : nn = k := congrArg Prod.snd (Option.some.inj hs)
            rw [← hkn] at hch
            exact urlPat1_cap _ nn hp ch hch
        have hk : k ≤ 1 + a'.length := by
          by_contra hgt
          push_neg at hgt
          have hwmem : w ∈ (c :: (a' ++ w :: b)).take k := by
            rw [show c :: (a' ++ w :: b) = (c :: a') ++ (w :: b) from rfl]
            rw [List.take_append_eq_append_take]
            apply List.mem_append_right
            have hsub : k - (c :: a').length = (k - (c :: a').length - 1) + 1 := by
              simp only [List.length_cons]
              omega
            rw [hsub, List.take_succ_cons]
            exact List.mem_cons_self _ _
          have hfalse := hcap w hwmem
          rw [hw] at hfalse
          cases hfalse
        have h1k : 1 ≤ max k 1 := le_max_right k 1
        have hk1le : max k 1 ≤ 1 + a'.length :=
          max_le hk (by omega)
        rw [show (c :: (a' ++ w :: b)).length = (a' ++ w :: b).length + 1 from rfl]
        rw [scanAF_cons _ _ p c _ v k hs]
        apply List.mem_cons_of_mem
        have hdrop : (c :: (a' ++ w :: b)).drop (max k 1) =
            ((c :: a').drop (max k 1)) ++ (w :: b) := by
          rw [show c :: (a' ++ w :: b) = (c :: a') ++ (w :: b) from rfl]
          rw [List.drop_append_eq_append_drop]
          rw [Nat.sub_eq_zero_of_le (by
            simp only [List.length_cons]
            omega)]
          rw [List.drop_zero]
        rw [hdrop]
        rw [scanAF_congr _ hirr (a' ++ w :: b).length _ _ none (by
          simp only [List.length_append, List.length_drop, List.length_cons]
          omega)]
        exact ih ((c :: a').drop (max k 1)) none (by
          simp only [List.length_drop, List.length_cons] at ha ⊢
          omega)

theorem urlPat1_at_url (post : List Char)
    (h : post = [] ∨ ∃ c p, post = c :: p ∧ isSpacePy c = true) :
    urlPat1 (str "https://github.com/example/repo" ++ post) = some 31 := by
  rcases h with h | ⟨c, p, hcp, hc⟩
  · subst h
    rfl
  · subst hcp
    rcases space_cases c hc with h1|h1|h1|h1|h1|h1 <;> subst h1 <;> rfl

theorem extract_urls_includes (pre post : List Char)
    (hpre : pre = [] ∨ ∃ p c, pre = p ++ [c] ∧ isSpacePy c = true)
    (hpost : post = [] ∨ ∃ c p, post = c :: p ∧ isSpacePy c = true) :
    str "https://github.com/example/repo" ∈
      extract_urls (pre ++ str "https://github.com/example/repo" ++ post) := by
  have htake : (str "https://github.com/example/repo" ++ post).take 31 =
      str "https://github.com/example/repo" := by
    rw [show (31 : Nat) = (str "https://github.com/example/repo").length from rfl]
    exact List.take_left _ _
  have hstep : urlStep urlPat1 none
      (str "https://github.com/example/repo" ++ post) =
      some (str "https://github.com/example/repo", 31) := by
    unfold urlStep
    simp only [urlPat1_at_url post hpost, htake]
  have hbase : str "https://github.com/example/repo" ∈
      scanA (urlStep urlPat1) none
        (str "https://github.com/example/repo" ++ post) := by
    have hform : str "https://github.com/example/repo" ++ post =
        'h' :: (str "ttps://github.com/example/repo" ++ post) := rfl
    unfold scanA
    rw [hform]
    rw [show ('h' :: (str "ttps://github.com/example/repo" ++ post)).length =
      (str "ttps://github.com/example/repo" ++ post).length + 1 from rfl]
    rw [scanAF_cons _ _ none 'h' _ _ 31 (hform ▸ hstep)]
    exact List.mem_cons_self _ _
  have hmem : str "https://github.com/example/repo" ∈
      scanA (urlStep urlPat1) none
        (pre ++ str "https://github.com/example/repo" ++ post) := by
    rcases hpre with h | ⟨p, c, hpc, hc⟩
    · subst h
      simpa using hbase
    · subst hpc
      have hassoc : ((p ++ [c]) ++ str "https://github.com/example/repo") ++ post =
          p ++ (c :: (str "https://github.com/example/repo" ++ post)) := by
        simp
      rw [hassoc]
      unfold scanA
      exact scan_through c hc (str "https://github.com/example/repo" ++ post)
        (str "https://github.com/example/repo") hbase p.length p none (le_refl _)
  have hstrip : stripEnds punctSet (str "https://github.com/example/repo") =
      str "https://github.com/example/repo" := by decide
  unfold extract_urls urlPatterns
  simp only [List.foldl_cons, List.foldl_nil, List.nil_append]
  apply mem_foldl_insertNew
  apply List.mem_append_left
  apply List.mem_append_left
  apply List.mem_filterMap.mpr
  refine ⟨str "https://github.com/example/repo", hmem, ?_⟩
  rw [if_pos ⟨by rw [hstrip]; decide, by rw [hstrip]; decide⟩, hstrip]

/-- C6, counterexample.  The text `see https://github.com/example/repoz`
contains the substring `https://github.com/example/repo`, yet the
extractor does not return that exact string: the greedy path class
absorbs the following `z`, so only the longer URL is returned. -/
theorem C6_url_counterexample :
    containsSub (str "https://github.com/example/repo")
        (str "see https://github.com/example/repoz") = true ∧
    ¬ (str "https://github.com/example/repo" ∈
        extract_urls (str "see https://github.com/example/repoz")) := by
  constructor
  · decide
  · decide

/-- C6, amended.  `extract_urls` always returns a duplicate-free
collection whose members are longer than 5 characters and end in no
punctuation character of `.,;:!?` (candidates are stripped of them);
and whenever the occurrence of `https://github.com/example/repo` is
delimited — preceded by the start of the text or a whitespace
character, and followed by the end of the text or a whitespace
character — the result includes that exact string, nothing trimmed.
(For undelimited occurrences the greedy URL classes may extend the
match, so the exact string is not guaranteed.) -/
theorem C6_url_extraction :
    (∀ text : List Char, (extract_urls text).Nodup ∧
       ∀ u ∈ extract_urls text, 5 < u.length ∧
         ∀ c : Char, u.getLast? = some c → punctSet c = false) ∧
    (∀ pre post : List Char,
       (pre = [] ∨ ∃ p c, pre = p ++ [c] ∧ isSpacePy c = true) →
       (post = [] ∨ ∃ c p, post = c :: p ∧ isSpacePy c = true) →
       str "https://github.com/example/repo" ∈
         extract_urls (pre ++ str "https://github.com/example/repo" ++ post)) :=
  ⟨extract_urls_shape, extract_urls_includes⟩

/-- C6, witness. -/
theorem C6_url_extraction_witness :
    str "https://github.com/example/repo" ∈
      extract_urls (str "Check out " ++ str "https://github.com/example/repo" ++
        str " and more") :=
  C6_url_extraction.2 (str "Check out ") (str " and more")
    (Or.inr ⟨str "Check out", ' ', rfl, rfl⟩)
    (Or.inr ⟨' ', str "and more", rfl, rfl⟩)

end YtHoover
